import Mathlib

/-!
Verification of the sei-cosmos multi-version store (package `multiversion`,
file `src/unnamed/part_000`) and of the optimistic-concurrency scheduler
(package `tasks`, files `src/tasks/scheduler.go` and `src/tasks/utils.go`).

The multi-version store keeps, per key, a versioned map from transaction
index to a value entry tagged Written, Deleted or Estimate.  Go maps are
embedded as association lists looked up at the first matching key; Go byte
slices as `Option (List Nat)` so that a nil slice (`none`) stays distinct
from an empty one (`some []`), the distinction the Go code tests with
`value != nil`; Go `bytes.Equal`, which identifies nil with empty, is
`bytesEqual`.  A Go `panic` is an `Except.error`.
-/

set_option linter.unusedVariables false

/-- Byte slices of the Go code, as lists of bytes. -/
abbrev Bytes := List Nat

/-- Go bytes.Equal: nil compares equal to the empty slice. -/
def bytesEqual (a b : Option Bytes) : Bool :=
  a.getD [] == b.getD []

/-- Lookup in an association list at the first matching key, the embedding of
a Go map read (absent key gives `none`, which stands for Go nil). -/
def lookupL {κ α : Type} [DecidableEq κ] : List (κ × α) → κ → Option α
  | [], _ => none
  | (a, b) :: rest, k => if a = k then some b else lookupL rest k

/-- Write to an association list: replace the first binding of the key, or
append a new binding, the embedding of a Go map write. -/
def setL {κ α : Type} [DecidableEq κ] : List (κ × α) → κ → α → List (κ × α)
  | [], k, v => [(k, v)]
  | (a, b) :: rest, k, v => if a = k then (k, v) :: rest else (a, b) :: setL rest k v

/-- Erase every binding of a key, the embedding of a Go map delete. -/
def eraseL {κ α : Type} [DecidableEq κ] (m : List (κ × α)) (k : κ) : List (κ × α) :=
  m.filter (fun p => ¬ p.1 = k)

/-- Insert into a strictly sorted list, skipping duplicates. -/
def insertUniq {α : Type} [LinearOrder α] (x : α) : List α → List α
  | [] => [x]
  | y :: ys => if x < y then x :: y :: ys else if x = y then y :: ys else y :: insertUniq x ys

/-- Sort a list strictly ascending with duplicates removed: the embedding of
collecting Go map keys (or a Go set of ints) and sorting them. -/
def sortDedup {α : Type} [LinearOrder α] (l : List α) : List α :=
  l.foldr insertUniq []

/-- Value entry at one (key, transaction index) slot of the multi-version
store: Written bytes, a Deleted tombstone, or an Estimate placeholder, each
carrying the incarnation that produced it (spec section 3). -/
inductive MVVal where
  | written (incarnation : Int) (value : Bytes)
  | deleted (incarnation : Int)
  | estimate (incarnation : Int)
deriving DecidableEq

/-- Whether an entry is an Estimate (the Go IsEstimate method). -/
def MVVal.IsEstimate : MVVal → Bool
  | MVVal.estimate _ => true
  | _ => false

/-- Modelled from the spec: the per-key VersionedValue of spec section 4.1 (the
Go MultiVersionItem implementation is not among the given source files; only
its interface and call sites are).  A mapping from transaction index to value
entry, with at most one entry per index. -/
abbrev MVItem := List (Int × MVVal)

/-- Modelled from the spec: `set(i, k, v)` stores Written(v, k) at index i,
replacing any prior entry. -/
def MVItem.Set (item : MVItem) (index incarnation : Int) (value : Bytes) : MVItem :=
  setL item index (MVVal.written incarnation value)

/-- Modelled from the spec: `delete(i, k)` stores Deleted(k) at index i. -/
def MVItem.Delete (item : MVItem) (index incarnation : Int) : MVItem :=
  setL item index (MVVal.deleted incarnation)

/-- Modelled from the spec: `set_estimate(i, k)` stores Estimate(k) at index i. -/
def MVItem.SetEstimate (item : MVItem) (index incarnation : Int) : MVItem :=
  setL item index (MVVal.estimate incarnation)

/-- Modelled from the spec: `remove(i)` erases the entry at index i. -/
def MVItem.Remove (item : MVItem) (index : Int) : MVItem :=
  eraseL item index

/-- Entry at the greatest index among a list of entries, `none` when empty. -/
def maxEntry : List (Int × MVVal) → Option (Int × MVVal)
  | [] => none
  | p :: rest =>
    match maxEntry rest with
    | none => some p
    | some q => if p.1 < q.1 then some q else some p

/-- Modelled from the spec: `latest()` is the entry at the greatest index. -/
def MVItem.GetLatest (item : MVItem) : Option (Int × MVVal) :=
  maxEntry item

/-- Modelled from the spec: `latest_before(i)` is the entry at the greatest
index strictly less than i. -/
def MVItem.GetLatestBeforeIndex (item : MVItem) (index : Int) : Option (Int × MVVal) :=
  maxEntry (item.filter (fun p => p.1 < index))

/-- Modelled from the spec: `latest_non_estimate()` is the entry at the
greatest index whose entry is not an Estimate. -/
def MVItem.GetLatestNonEstimate (item : MVItem) : Option (Int × MVVal) :=
  maxEntry (item.filter (fun p => p.2.IsEstimate = false))

/-- A transaction writeset: key to bytes, nil bytes (`none`) is a tombstone
(`type WriteSet map[string][]byte`). -/
abbrev WriteSet := List (String × Option Bytes)

/-- A transaction readset: key to the observed bytes, nil (`none`) meaning
observed absent (`type ReadSet map[string][]byte`). -/
abbrev ReadSet := List (String × Option Bytes)

/-- The multi-version store (`type Store struct` of src/unnamed/part_000
lines 34 to 44): the key to VersionedValue map, the per-index writeset key
lists, the per-index readsets, and the parent key-value store. -/
structure Store where
  multiVersionMap : List (String × MVItem)
  txWritesetKeys : List (Int × List String)
  txReadSets : List (Int × ReadSet)
  parentStore : List (String × Bytes)
deriving DecidableEq

/-- NewMultiVersionStore (part_000 lines 46 to 53). -/
def NewMultiVersionStore (parentStore : List (String × Bytes)) : Store :=
  { multiVersionMap := [], txWritesetKeys := [], txReadSets := [], parentStore := parentStore }

/-- GetLatestBeforeIndex of the Store (part_000 lines 77 to 93): `none` when
the key has no VersionedValue or no entry strictly before the index. -/
def Store.GetLatestBeforeIndex (s : Store) (index : Int) (key : String) : Option (Int × MVVal) :=
  match lookupL s.multiVersionMap key with
  | none => none
  | some item => item.GetLatestBeforeIndex index

/-- tryInitMultiVersionItem (part_000 lines 110 to 115): lazily create an
empty VersionedValue for the key. -/
def Store.tryInitMultiVersionItem (s : Store) (keyString : String) : Store :=
  match lookupL s.multiVersionMap keyString with
  | some _ => s
  | none => { s with multiVersionMap := setL s.multiVersionMap keyString [] }

/-- Body of the removal loop of removeOldWriteset (part_000 lines 126 to
136): skip keys the new writeset will overwrite, otherwise remove the entry
at the index from the VersionedValue of the key when one exists. -/
def removeWritesetKeyStep (s : Store) (index : Int) (newWriteSet : WriteSet) (key : String) : Store :=
  if (lookupL newWriteSet key).isSome then s
  else
    match lookupL s.multiVersionMap key with
    | none => s
    | some item => { s with multiVersionMap := setL s.multiVersionMap key (item.Remove index) }

/-- removeOldWriteset (part_000 lines 117 to 140): remove the stale entries
of the previous writeset of the index, then unset its writeset key list. -/
def Store.removeOldWriteset (s : Store) (index : Int) (newWriteSet : WriteSet) : Store :=
  let keys := (lookupL s.txWritesetKeys index).getD []
  let s1 := keys.foldl (fun acc key => removeWritesetKeyStep acc index newWriteSet key) s
  { s1 with txWritesetKeys := eraseL s1.txWritesetKeys index }

/-- Body of the write loop of SetWriteset (part_000 lines 152 to 161): init
the VersionedValue and store a Deleted entry for a nil value, a Written entry
otherwise. -/
def applyWritesetEntryStep (s : Store) (index incarnation : Int) (p : String × Option Bytes) : Store :=
  let s1 := s.tryInitMultiVersionItem p.1
  let item := (lookupL s1.multiVersionMap p.1).getD []
  match p.2 with
  | none => { s1 with multiVersionMap := setL s1.multiVersionMap p.1 (item.Delete index incarnation) }
  | some v => { s1 with multiVersionMap := setL s1.multiVersionMap p.1 (item.Set index incarnation v) }

/-- SetWriteset (part_000 lines 144 to 164): remove the old writeset, write
every entry of the new one, and record the sorted key list of the new
writeset for the index.  `sortDedup` plays the role of ranging over the keys
of the Go writeset map (distinct by map semantics) followed by sort.Strings. -/
def Store.SetWriteset (s : Store) (index incarnation : Int) (writeset : WriteSet) : Store :=
  let s1 := s.removeOldWriteset index writeset
  let s2 := writeset.foldl (fun acc p => applyWritesetEntryStep acc index incarnation p) s1
  { s2 with txWritesetKeys := setL s2.txWritesetKeys index (sortDedup (writeset.map Prod.fst)) }

/-- Body of the loop of InvalidateWriteset (part_000 lines 172 to 176): init
the VersionedValue (a no-op for existing keys) and overwrite the entry at the
index with an Estimate. -/
def invalidateKeyStep (s : Store) (index incarnation : Int) (key : String) : Store :=
  let s1 := s.tryInitMultiVersionItem key
  let item := (lookupL s1.multiVersionMap key).getD []
  { s1 with multiVersionMap := setL s1.multiVersionMap key (item.SetEstimate index incarnation) }

/-- InvalidateWriteset (part_000 lines 167 to 179): replace the entry of
every recorded writeset key of the index with an Estimate; the writeset key
list is left in place. -/
def Store.InvalidateWriteset (s : Store) (index incarnation : Int) : Store :=
  match lookupL s.txWritesetKeys index with
  | none => s
  | some keys => keys.foldl (fun acc key => invalidateKeyStep acc index incarnation key) s

/-- Body of the loop of SetEstimatedWriteset (part_000 lines 191 to 195). -/
def applyEstimateEntryStep (s : Store) (index incarnation : Int) (p : String × Option Bytes) : Store :=
  let s1 := s.tryInitMultiVersionItem p.1
  let item := (lookupL s1.multiVersionMap p.1).getD []
  { s1 with multiVersionMap := setL s1.multiVersionMap p.1 (item.SetEstimate index incarnation) }

/-- SetEstimatedWriteset (part_000 lines 182 to 198): like SetWriteset but
every entry stored is an Estimate. -/
def Store.SetEstimatedWriteset (s : Store) (index incarnation : Int) (writeset : WriteSet) : Store :=
  let s1 := s.removeOldWriteset index writeset
  let s2 := writeset.foldl (fun acc p => applyEstimateEntryStep acc index incarnation p) s1
  { s2 with txWritesetKeys := setL s2.txWritesetKeys index (sortDedup (writeset.map Prod.fst)) }

/-- SetReadset (part_000 lines 207 to 212). -/
def Store.SetReadset (s : Store) (index : Int) (readset : ReadSet) : Store :=
  { s with txReadSets := setL s.txReadSets index readset }

/-- GetReadset (part_000 lines 214 to 219): `none` embeds the nil map a Go
map read yields for an absent index. -/
def Store.GetReadset (s : Store) (index : Int) : Option ReadSet :=
  lookupL s.txReadSets index

/-- The panic message raised when a readset disagrees with the parent store
(part_000 line 235). -/
def parentConflictMsg : String :=
  "readset conflict with parent kv store"

/-- Body of the validation loop (part_000 lines 228 to 250) for one readset
pair: `Except.ok none` for no conflict, `Except.ok (some j)` to record index
j in the conflict set, `Except.error` for the panic on a parent-store
mismatch when no entry exists strictly before the index. -/
def conflictOf (s : Store) (index : Int) (key : String) (value : Option Bytes) : Except String (Option Int) :=
  match s.GetLatestBeforeIndex index key with
  | none =>
    if bytesEqual (lookupL s.parentStore key) value then Except.ok none
    else Except.error parentConflictMsg
  | some (j, MVVal.estimate _) => Except.ok (some j)
  | some (j, MVVal.deleted _) => Except.ok (if value.isSome then some j else none)
  | some (j, MVVal.written _ v) => Except.ok (if bytesEqual (some v) value then none else some j)

/-- The validation loop over a readset, collecting the conflict indices in
iteration order (the Go code adds them to a set; duplicates are removed when
sorting below). -/
def collectConflicts (s : Store) (index : Int) : List (String × Option Bytes) → Except String (List Int)
  | [] => Except.ok []
  | (key, value) :: rest =>
    match conflictOf s index key value with
    | Except.error e => Except.error e
    | Except.ok c =>
      match collectConflicts s index rest with
      | Except.error e => Except.error e
      | Except.ok cs => Except.ok (match c with | some j => j :: cs | none => cs)

/-- ValidateTransactionState (part_000 lines 221 to 261): validate the
recorded readset of the index against the latest entries strictly before it
and return the conflict indices sorted ascending. -/
def Store.ValidateTransactionState (s : Store) (index : Int) : Except String (List Int) :=
  match collectConflicts s index ((s.GetReadset index).getD []) with
  | Except.error e => Except.error e
  | Except.ok cs => Except.ok (sortDedup cs)

/-- The Go ValidateTransactionState as a method call on the store: the method
takes only read locks and assigns no field of the receiver, so the
state-passing translation returns the store unchanged beside the result. -/
def Store.ValidateTransactionStateCall (s : Store) (index : Int) : Except String (List Int) × Store :=
  (s.ValidateTransactionState index, s)

/-- The panic message of WriteLatestToStore (part_000 line 282). -/
def estimatePanicMsg : String :=
  "should not have any estimate values when writing to parent store"

/-- Body of the commit loop of WriteLatestToStore (part_000 lines 274 to
296) for one key: skip when nothing is writeable, panic on an Estimate,
delete the parent key for a Deleted entry, otherwise set the parent key to
the written bytes (the Go guard `mvValue.Value() != nil` always holds for a
Written entry, which stores a non-nil slice). -/
def writeKeyStep (s : Store) (key : String) : Except String Store :=
  match MVItem.GetLatestNonEstimate ((lookupL s.multiVersionMap key).getD []) with
  | none => Except.ok s
  | some (_, MVVal.estimate _) => Except.error estimatePanicMsg
  | some (_, MVVal.deleted _) => Except.ok { s with parentStore := eraseL s.parentStore key }
  | some (_, MVVal.written _ v) => Except.ok { s with parentStore := setL s.parentStore key v }

/-- The commit loop of WriteLatestToStore over the sorted key list. -/
def writeKeysLoop : Store → List String → Except String Store
  | s, [] => Except.ok s
  | s, key :: rest =>
    match writeKeyStep s key with
    | Except.error e => Except.error e
    | Except.ok s1 => writeKeysLoop s1 rest

/-- WriteLatestToStore (part_000 lines 263 to 297): iterate the keys of the
multi-version map in sorted order and flush the latest non-estimate entry of
each to the parent store. -/
def Store.WriteLatestToStore (s : Store) : Except String Store :=
  writeKeysLoop s (sortDedup (s.multiVersionMap.map Prod.fst))

/-- Observation: the entry stored at one (key, transaction index) slot. -/
def entryAt (s : Store) (key : String) (j : Int) : Option MVVal :=
  match lookupL s.multiVersionMap key with
  | none => none
  | some item => lookupL item j

/-- The readset recorded for an index, empty when none was recorded. -/
def readsetOf (s : Store) (index : Int) : ReadSet :=
  (s.GetReadset index).getD []

/-- The writeset key list recorded for an index, empty when none. -/
def oldKeysAt (s : Store) (index : Int) : List String :=
  (lookupL s.txWritesetKeys index).getD []

/-- The entry a transaction writing `v` at incarnation `k` leaves at its
index: a tombstone becomes Deleted, bytes become Written. -/
def mkWriteEntry (incarnation : Int) (v : Option Bytes) : MVVal :=
  match v with
  | none => MVVal.deleted incarnation
  | some b => MVVal.written incarnation b

/-- Every entry at the index is accounted for by the recorded writeset key
list of the index: the invariant every store reachable through the public
Store operations keeps, stated over the finitely many keys of the map. -/
def WritesetCoversIndex (s : Store) (index : Int) : Prop :=
  ∀ key ∈ s.multiVersionMap.map Prod.fst, entryAt s key index = none ∨ key ∈ oldKeysAt s index

/-- Whether an optional entry is an Estimate. -/
def isEstimateOpt : Option MVVal → Bool
  | some (MVVal.estimate _) => true
  | _ => false

/-- The value the commit of the store leaves in the parent at a key: the
parent value untouched when the key has no committed entry, erased for a
Deleted entry, the written bytes for a Written entry (an Estimate never
reaches this point). -/
def commitResultAt (s : Store) (key : String) : Option Bytes :=
  match lookupL s.multiVersionMap key with
  | none => lookupL s.parentStore key
  | some item =>
    match item.GetLatestNonEstimate with
    | none => lookupL s.parentStore key
    | some (_, MVVal.deleted _) => none
    | some (_, MVVal.written _ v) => some v
    | some (_, MVVal.estimate _) => lookupL s.parentStore key

/-- Task status (scheduler.go lines 14 to 29). -/
inductive TaskStatus where
  | pending
  | executed
  | aborted
  | validated
deriving DecidableEq

/-- The deliverTxTask record (scheduler.go lines 31 to 42), keeping the fields the
scheduling logic reads; the request bytes and contexts are opaque to the
scheduler and are folded into the handler function below. -/
structure DeliverTxTask where
  index : Int
  incarnation : Int
  status : TaskStatus
  response : Option Nat
  abort : Option Int
deriving DecidableEq

/-- Increment (scheduler.go lines 44 to 50): bump the incarnation, reset the
status to pending and clear the response and abort info. -/
def DeliverTxTask.Increment (t : DeliverTxTask) : DeliverTxTask :=
  { t with incarnation := t.incarnation + 1, status := TaskStatus.pending,
           response := none, abort := none }

/-- What one execution of the external deliverTx handler produces through its
version-indexed stores, per store key: the readset and writeset it published,
an opaque response, and abort info when a read hit an Estimate.  The handler
is an external collaborator of the scheduler (spec section 1); a
deterministic handler is modelled as a function of the task index and
incarnation. -/
structure ExecResult where
  readsets : List (String × ReadSet)
  writesets : List (String × WriteSet)
  response : Nat
  aborted : Option Int

/-- A deterministic transaction handler. -/
abbrev HandlerFn := Int → Int → ExecResult

/-- The per-store-key multi-version stores of the scheduler
(scheduler.go line 60). -/
structure SchedulerState where
  multiVersionStores : List (String × Store)
deriving DecidableEq

/-- initMultiVersionStore (scheduler.go lines 113 to 120): one fresh
multi-version store per store key over the parent key-value stores of the
context. -/
def initMultiVersionStore (ctxStores : List (String × List (String × Bytes))) : SchedulerState :=
  { multiVersionStores := ctxStores.map (fun p => (p.1, NewMultiVersionStore p.2)) }

/-- toTasks (scheduler.go lines 93 to 103): one pending task per request, at
incarnation 0 and index equal to the request position. -/
def toTasks (n : Nat) : List DeliverTxTask :=
  (List.range n).map (fun idx =>
    { index := Int.ofNat idx, incarnation := 0, status := TaskStatus.pending,
      response := none, abort := none })

/-- collectResponses (scheduler.go lines 105 to 111), responses in task
order (the Go code dereferences the response of every task; after a
successful run every task carries one). -/
def collectResponses (tasks : List DeliverTxTask) : List Nat :=
  tasks.map (fun t => t.response.getD 0)

/-- done (scheduler.go lines 131 to 138): every task is validated. -/
def doneTasks (tasks : List DeliverTxTask) : Bool :=
  tasks.all (fun t => match t.status with | TaskStatus.validated => true | _ => false)

/-- Modelled from the spec: WriteToMultiVersionStore of the
VersionIndexedStore (spec section 4.3; the VersionIndexedStore implementation
is not among the given source files), invoked by the worker loop
(scheduler.go lines 240 to 243): publish the readset then the writeset of
every per-store-key version store of the task into its multi-version store. -/
def writeToMVS (st : SchedulerState) (index incarnation : Int) (r : ExecResult) : SchedulerState :=
  { multiVersionStores := st.multiVersionStores.map (fun p =>
      (p.1, Store.SetWriteset
              (Store.SetReadset p.2 index ((lookupL r.readsets p.1).getD []))
              index incarnation ((lookupL r.writesets p.1).getD []))) }

/-- Replace the task of the given index. -/
def setTask (tasks : List DeliverTxTask) (idx : Int) (t1 : DeliverTxTask) : List DeliverTxTask :=
  tasks.map (fun t => if t.index = idx then t1 else t)

/-- executeAll (scheduler.go lines 209 to 292), sequentially determinized:
the worker pool runs the handler once per dispatched task; a task whose
abort channel carries an abort becomes aborted, otherwise its version stores
are written to the multi-version stores and it becomes executed with its
response recorded.  The claims settled here do not depend on the worker
interleaving. -/
def executeAll (handler : HandlerFn) (st : SchedulerState) (tasks : List DeliverTxTask)
    (toExec : List Int) : SchedulerState × List DeliverTxTask :=
  toExec.foldl (fun acc idx =>
    match (acc.2.find? (fun t => t.index = idx)) with
    | none => acc
    | some t =>
      let r := handler t.index t.incarnation
      match r.aborted with
      | some a =>
        (acc.1, setTask acc.2 idx { t with status := TaskStatus.aborted, abort := some a })
      | none =>
        (writeToMVS acc.1 t.index t.incarnation r,
         setTask acc.2 idx { t with status := TaskStatus.executed,
                                    response := some r.response, abort := none }))
    (st, tasks)

/-- The conflict collection of findConflicts (scheduler.go lines 80 to 88)
across the multi-version stores. -/
def collectStoreConflicts : List (String × Store) → Int → Except String (List Int)
  | [], _ => Except.ok []
  | (_, mvs) :: rest, index =>
    match mvs.ValidateTransactionState index with
    | Except.error e => Except.error e
    | Except.ok cs =>
      match collectStoreConflicts rest index with
      | Except.error e => Except.error e
      | Except.ok rs => Except.ok (cs ++ rs)

/-- findConflicts (scheduler.go lines 77 to 91): validate the task index on
every store, dedup across stores and sort ascending. -/
def findConflicts (st : SchedulerState) (t : DeliverTxTask) : Except String (List Int) :=
  match collectStoreConflicts st.multiVersionStores t.index with
  | Except.error e => Except.error e
  | Except.ok cs => Except.ok (sortDedup cs)

/-- invalidateTask (scheduler.go lines 71 to 75): invalidate the writeset of
the task on every multi-version store. -/
def invalidateTask (st : SchedulerState) (t : DeliverTxTask) : SchedulerState :=
  { multiVersionStores := st.multiVersionStores.map (fun p =>
      (p.1, Store.InvalidateWriteset p.2 t.index t.incarnation)) }

/-- validateAll (scheduler.go lines 170 to 204): walk the tasks in index
order; an aborted task is returned for re-execution as is, a task with
conflicts has its writesets invalidated and is returned, a conflict-free
task becomes validated.  Returns the updated stores, the updated task list
and the indices of the tasks to re-execute. -/
def validateAllGo (st : SchedulerState) : List DeliverTxTask → Except String (SchedulerState × List DeliverTxTask × List Int)
  | [] => Except.ok (st, [], [])
  | t :: rest =>
    match t.status with
    | TaskStatus.aborted =>
      match validateAllGo st rest with
      | Except.error e => Except.error e
      | Except.ok (st1, rest1, res) => Except.ok (st1, t :: rest1, t.index :: res)
    | _ =>
      match findConflicts st t with
      | Except.error e => Except.error e
      | Except.ok conflicts =>
        if conflicts.isEmpty then
          match validateAllGo st rest with
          | Except.error e => Except.error e
          | Except.ok (st1, rest1, res) =>
            Except.ok (st1, { t with status := TaskStatus.validated } :: rest1, res)
        else
          match validateAllGo (invalidateTask st t) rest with
          | Except.error e => Except.error e
          | Except.ok (st1, rest1, res) => Except.ok (st1, t :: rest1, t.index :: res)

/-- Increment every task whose index was returned for re-execution
(scheduler.go lines 161 to 163). -/
def incrementAt (tasks : List DeliverTxTask) (res : List Int) : List DeliverTxTask :=
  tasks.map (fun t => if t.index ∈ res then t.Increment else t)

/-- The execute-validate loop of ProcessAll (scheduler.go lines 144 to 164),
with explicit fuel standing for the unbounded Go loop: `none` means the fuel
ran out before every task validated. -/
def processLoop (handler : HandlerFn) : Nat → SchedulerState → List DeliverTxTask → List Int →
    Option (Except String (List Nat × SchedulerState))
  | fuel, st, tasks, toExec =>
    if doneTasks tasks then some (Except.ok (collectResponses tasks, st))
    else
      match fuel with
      | 0 => none
      | Nat.succ fuel1 =>
        let p := if toExec.isEmpty then (st, tasks) else executeAll handler st tasks toExec
        match validateAllGo p.1 p.2 with
        | Except.error e => some (Except.error e)
        | Except.ok (st2, tasks2, res) => processLoop handler fuel1 st2 (incrementAt tasks2 res) res

/-- ProcessAll (scheduler.go lines 140 to 166): build the multi-version
stores, build the tasks, run the execute-validate loop until every task is
validated, and return the responses.  The function body neither seeds
estimated writesets nor calls WriteLatestToStore. -/
def ProcessAll (handler : HandlerFn) (fuel : Nat)
    (ctxStores : List (String × List (String × Bytes))) (n : Nat) :
    Option (Except String (List Nat × SchedulerState)) :=
  processLoop handler fuel (initMultiVersionStore ctxStores) (toTasks n)
    ((List.range n).map Int.ofNat)

/-- Modelled from the spec: a DeliverTxEntry (spec section 6; the
sdk.DeliverTxEntry type is not among the given source files): the request,
opaque here, with an optional per-store-key map of estimated writesets. -/
structure DeliverTxEntry where
  request : Nat
  estimatedWritesets : List (String × WriteSet)

/-- Update one multi-version store of the scheduler by store key. -/
def updateMVS (st : SchedulerState) (sk : String) (f : Store → Store) : SchedulerState :=
  { multiVersionStores := st.multiVersionStores.map (fun p => if p.1 = sk then (p.1, f p.2) else p) }

/-- PrefillEstimates (src/tasks/utils.go lines 85 to 95): for every request
index and every store key with an estimated writeset, seed the writeset as
estimates at incarnation -1 on that store key's multi-version store. -/
def PrefillEstimates (st : SchedulerState) (reqs : List DeliverTxEntry) : SchedulerState :=
  reqs.enum.foldl (fun acc p =>
    p.2.estimatedWritesets.foldl (fun acc2 q =>
      updateMVS acc2 q.1 (fun mvs => mvs.SetEstimatedWriteset (Int.ofNat p.1) (-1) q.2)) acc) st

/-- A one-transaction batch over one store key: the handler writes key "a"
to the bytes [7], reads nothing, answers 42 and never aborts. -/
def exHandler : HandlerFn := fun idx inc =>
  { readsets := [("sk", [])], writesets := [("sk", [("a", some [7])])],
    response := 42, aborted := none }

/-- The context of the batch: one store key "sk" whose parent store holds
only key "p". -/
def exCtx : List (String × List (String × Bytes)) := [("sk", [("p", [1])])]

/-- The run of ProcessAll on the one-transaction batch. -/
def exRun : Option (Except String (List Nat × SchedulerState)) :=
  ProcessAll exHandler 3 exCtx 1

/-- The responses of the run, `none` unless the run returned successfully. -/
def exRunResponses : Option (List Nat) :=
  match exRun with
  | some (Except.ok (rs, _)) => some rs
  | _ => none

/-- The multi-version store of store key "sk" after the run. -/
def exRunStore : Option Store :=
  match exRun with
  | some (Except.ok (_, st)) => lookupL st.multiVersionStores "sk"
  | _ => none

/-- The parent store left behind by the run. -/
def exRunParent : Option (List (String × Bytes)) :=
  exRunStore.map Store.parentStore

/-- What key "a" of the parent would hold had the run committed its final
multi-version store through WriteLatestToStore. -/
def exRunFlushedA : Option (Option Bytes) :=
  exRunStore.map (fun st =>
    match st.WriteLatestToStore with
    | Except.ok s2 => lookupL s2.parentStore "a"
    | Except.error _ => none)

/-- A one-entry batch whose DeliverTxEntry carries an estimated writeset for
key "y" of store key "sk". -/
def exEntries : List DeliverTxEntry :=
  [{ request := 9, estimatedWritesets := [("sk", [("y", some [5])])] }]

/-- The context of the estimated batch: one store key with an empty parent. -/
def exCtx2 : List (String × List (String × Bytes)) := [("sk", [])]

/-- The entry at (key "y", index 0) of store key "sk" in a scheduler state. -/
def entryYAt (st : SchedulerState) : Option (Option MVVal) :=
  (lookupL st.multiVersionStores "sk").map (fun mvs => entryAt mvs "y" 0)


/-- The conflict condition of the validation loop for one readset pair and a
candidate index j: the latest entry strictly before the validated index is an
Estimate at j, or a Deleted entry at j while the observed value is non-nil,
or a Written entry at j whose bytes differ from the observed value. -/
def conflictCondition (s : Store) (index : Int) (key : String) (obs : Option Bytes) (j : Int) : Prop :=
  (∃ k, s.GetLatestBeforeIndex index key = some (j, MVVal.estimate k)) ∨
  ((∃ k, s.GetLatestBeforeIndex index key = some (j, MVVal.deleted k)) ∧ obs.isSome = true) ∨
  (∃ k v, s.GetLatestBeforeIndex index key = some (j, MVVal.written k v) ∧
    bytesEqual (some v) obs = false)

/-- What validation returns: a strictly ascending list holding exactly the
indices blamed by some readset pair. -/
def ValidateConflictsSpec (s : Store) (index : Int) (l : List Int) : Prop :=
  l.Pairwise (fun a b => a < b) ∧
  ∀ j : Int, j ∈ l ↔ ∃ p ∈ readsetOf s index, conflictCondition s index p.1 p.2 j

/-- What SetWriteset(i, k, W) does: the recorded key list of i becomes the
ascending sorted key list of W; every key of W holds its Written or Deleted
entry at i; every key of the previous writeset not in W loses its entry at
i; every other key keeps its entry at i; entries at other indices are
untouched; and, from a state whose entries at i are covered by its recorded
writeset key list, writing W over any previous writeset leaves every key not
in W exactly as if the previous writeset had never been set. -/
def SetWritesetSpec (s : Store) (index incarnation : Int) (W : WriteSet) : Prop :=
  lookupL (s.SetWriteset index incarnation W).txWritesetKeys index =
    some (sortDedup (W.map Prod.fst)) ∧
  (∀ key v, lookupL W key = some v →
    entryAt (s.SetWriteset index incarnation W) key index = some (mkWriteEntry incarnation v)) ∧
  (∀ key, lookupL W key = none → key ∈ oldKeysAt s index →
    entryAt (s.SetWriteset index incarnation W) key index = none) ∧
  (∀ key, lookupL W key = none → key ∉ oldKeysAt s index →
    entryAt (s.SetWriteset index incarnation W) key index = entryAt s key index) ∧
  (∀ key j, j ≠ index →
    entryAt (s.SetWriteset index incarnation W) key j = entryAt s key j) ∧
  (∀ (s0 : Store) (k1 : Int) (W1 : WriteSet), WritesetCoversIndex s0 index →
    ∀ key, lookupL W key = none → ∀ j,
      entryAt ((s0.SetWriteset index k1 W1).SetWriteset index incarnation W) key j =
      entryAt (s0.SetWriteset index incarnation W) key j)

/-- What InvalidateWriteset(i, k) does: every recorded writeset key of i now
holds Estimate(k) at i, the writeset key lists are untouched (retained for a
future replacement), every other (key, index) entry is untouched, and the
readsets and parent store are untouched. -/
def InvalidateWritesetSpec (s : Store) (index incarnation : Int) : Prop :=
  (s.InvalidateWriteset index incarnation).txWritesetKeys = s.txWritesetKeys ∧
  (∀ key, key ∈ oldKeysAt s index →
    entryAt (s.InvalidateWriteset index incarnation) key index =
      some (MVVal.estimate incarnation)) ∧
  (∀ key j, key ∉ oldKeysAt s index ∨ j ≠ index →
    entryAt (s.InvalidateWriteset index incarnation) key j = entryAt s key j) ∧
  (s.InvalidateWriteset index incarnation).txReadSets = s.txReadSets ∧
  (s.InvalidateWriteset index incarnation).parentStore = s.parentStore

/-- What WriteLatestToStore does: the iterated key list is strictly
ascending, the commit returns without a panic, the multi-version map, the
writeset key lists and the readsets are untouched, and every parent key ends
at the value commitResultAt prescribes: untouched when the key has no
committed entry, erased for a Deleted entry, the written bytes for a Written
entry. -/
def WriteLatestSpec (s : Store) : Prop :=
  (sortDedup (s.multiVersionMap.map Prod.fst)).Pairwise (fun a b => a < b) ∧
  ∃ s1, s.WriteLatestToStore = Except.ok s1 ∧
    s1.multiVersionMap = s.multiVersionMap ∧
    s1.txWritesetKeys = s.txWritesetKeys ∧
    s1.txReadSets = s.txReadSets ∧
    ∀ key, lookupL s1.parentStore key = commitResultAt s key

/-- A store with two versioned keys, a recorded readset for index 2 and a
prefilled parent, exercising the estimate, deleted and written branches. -/
def exS : Store :=
  { multiVersionMap :=
      [("k1", [(0, MVVal.written 0 [1]), (1, MVVal.estimate 1)]),
       ("k2", [(0, MVVal.deleted 0)])],
    txWritesetKeys := [(0, ["k1", "k2"]), (1, ["k1"])],
    txReadSets := [(2, [("k1", some [9]), ("k2", some [3])])],
    parentStore := [("p", [1])] }

/-- A store whose readset for index 1 disagrees with the parent store on a
key that has no multi-version entry. -/
def exS6 : Store :=
  { multiVersionMap := [],
    txWritesetKeys := [],
    txReadSets := [(1, [("q", some [2])])],
    parentStore := [] }

/-- A replacement writeset touching an old key and a fresh key. -/
def exW : WriteSet := [("k2", some [4]), ("k3", none)]


/-- C1: the claim says a successful ProcessAll commits at the end by calling
WriteLatestToStore on every per-store-key multi-version store before the
responses are returned.  The ProcessAll of src/tasks/scheduler.go lines 140
to 166 contains no such call: on the one-transaction batch it returns the
response list [42] while the parent store of store key "sk" is left exactly
as it started, without key "a"; committing the final multi-version store
through WriteLatestToStore would have set key "a" to the bytes [7].  The
code therefore never flushes the winning values. -/
theorem processAll_returns_without_commit :
    exRunResponses = some [42] ∧
    exRunParent = some [("p", [1])] ∧
    exRunFlushedA = some (some [7]) :=
  ⟨rfl, rfl, rfl⟩

/-- C2: the claim says ProcessAll seeds estimated writesets at incarnation -1
before the first execution round.  The ProcessAll of src/tasks/scheduler.go
lines 140 to 166 hands the state built by initMultiVersionStore directly to
the execute-validate loop (third conjunct, definitional) and never calls
PrefillEstimates of src/tasks/utils.go, so the state entering the first
round has no entry at (key "y", index 0) for the batch whose entry carries
the estimated writeset (first conjunct); running PrefillEstimates on that
same state and batch, as the claim prescribes, would have seeded the
Estimate at incarnation -1 (second conjunct). -/
theorem processAll_skips_prefill_estimates :
    entryYAt (initMultiVersionStore exCtx2) = some none ∧
    entryYAt (PrefillEstimates (initMultiVersionStore exCtx2) exEntries) =
      some (some (MVVal.estimate (-1))) ∧
    ∀ (handler : HandlerFn) (fuel : Nat) (ctxStores : List (String × List (String × Bytes))) (n : Nat),
      ProcessAll handler fuel ctxStores n =
        processLoop handler fuel (initMultiVersionStore ctxStores) (toTasks n)
          ((List.range n).map Int.ofNat) :=
  ⟨rfl, rfl, fun _ _ _ _ => rfl⟩

theorem lookupL_setL {κ α : Type} [DecidableEq κ] (m : List (κ × α)) (k : κ) (v : α) (k' : κ) :
    lookupL (setL m k v) k' = if k' = k then some v else lookupL m k' := by
  induction m with
  | nil =>
    by_cases h : k' = k
    · subst h; simp [setL, lookupL]
    · have h2 : ¬ k = k' := fun hh => h hh.symm
      simp [setL, lookupL, h, h2]
  | cons p rest ih =>
    obtain ⟨a, b⟩ := p
    by_cases hak : a = k
    · subst hak
      simp only [setL, if_pos rfl, lookupL]
      by_cases h : a = k'
      · rw [if_pos h, if_pos h.symm]
      · have h2 : ¬ k' = a := fun hh => h hh.symm
        rw [if_neg h, if_neg h2, if_neg h]
    · simp only [setL, if_neg hak, lookupL]
      by_cases h : a = k'
      · have h2 : ¬ k' = k := fun hh => hak (h.trans hh)
        simp [h, h2]
      · simp [h, ih]

theorem lookupL_eraseL {κ α : Type} [DecidableEq κ] (m : List (κ × α)) (k k' : κ) :
    lookupL (eraseL m k) k' = if k' = k then none else lookupL m k' := by
  induction m with
  | nil => simp [eraseL, lookupL]
  | cons p rest ih =>
    obtain ⟨a, b⟩ := p
    by_cases hak : a = k
    · have hdrop : eraseL ((a, b) :: rest) k = eraseL rest k := by
        simp [eraseL, List.filter_cons, hak]
      rw [hdrop, ih]
      by_cases h : k' = k
      · simp [h]
      · have h2 : ¬ a = k' := fun hh => h (hh.symm.trans hak)
        simp [h, h2, lookupL]
    · have hkeep : eraseL ((a, b) :: rest) k = (a, b) :: eraseL rest k := by
        simp [eraseL, List.filter_cons, hak]
      rw [hkeep]
      by_cases h2 : a = k'
      · have h3 : ¬ k' = k := fun hh => hak (h2.trans hh)
        simp [lookupL, h2, h3]
      · simp [lookupL, h2, ih]

theorem lookupL_none_iff {κ α : Type} [DecidableEq κ] (m : List (κ × α)) (k : κ) :
    lookupL m k = none ↔ k ∉ m.map Prod.fst := by
  induction m with
  | nil => simp [lookupL]
  | cons p rest ih =>
    obtain ⟨a, b⟩ := p
    by_cases h : a = k
    · subst h; simp [lookupL]
    · have h2 : ¬ k = a := fun hh => h hh.symm
      simp [lookupL, h, h2, ih]

theorem mem_insertUniq {α : Type} [LinearOrder α] (x a : α) (l : List α) :
    a ∈ insertUniq x l ↔ a = x ∨ a ∈ l := by
  induction l with
  | nil => simp [insertUniq]
  | cons y ys ih =>
    by_cases h1 : x < y
    · simp [insertUniq, h1]
    · by_cases h2 : x = y
      · subst h2
        rw [insertUniq, if_neg (lt_irrefl x), if_pos rfl]
        simp only [List.mem_cons]
        tauto
      · simp only [insertUniq, if_neg h1, if_neg h2, List.mem_cons, ih]
        tauto

theorem pairwise_insertUniq {α : Type} [LinearOrder α] (x : α) (l : List α)
    (h : l.Pairwise (fun a b => a < b)) :
    (insertUniq x l).Pairwise (fun a b => a < b) := by
  induction l with
  | nil => simp [insertUniq]
  | cons y ys ih =>
    rw [List.pairwise_cons] at h
    obtain ⟨hy, hys⟩ := h
    by_cases h1 : x < y
    · rw [insertUniq, if_pos h1, List.pairwise_cons]
      refine ⟨?_, List.pairwise_cons.2 ⟨hy, hys⟩⟩
      intro z hz
      rcases List.mem_cons.1 hz with hz | hz
      · exact hz ▸ h1
      · exact lt_trans h1 (hy z hz)
    · by_cases h2 : x = y
      · rw [insertUniq, if_neg h1, if_pos h2, List.pairwise_cons]
        exact ⟨hy, hys⟩
      · rw [insertUniq, if_neg h1, if_neg h2, List.pairwise_cons]
        refine ⟨?_, ih hys⟩
        intro z hz
        rcases (mem_insertUniq x z ys).1 hz with hz | hz
        · subst hz
          exact lt_of_le_of_ne (not_lt.1 h1) (Ne.symm h2)
        · exact hy z hz

theorem mem_sortDedup {α : Type} [LinearOrder α] (a : α) (l : List α) :
    a ∈ sortDedup l ↔ a ∈ l := by
  induction l with
  | nil => simp [sortDedup]
  | cons y ys ih =>
    show a ∈ insertUniq y (sortDedup ys) ↔ _
    rw [mem_insertUniq, ih]
    simp

theorem pairwise_sortDedup {α : Type} [LinearOrder α] (l : List α) :
    (sortDedup l).Pairwise (fun a b => a < b) := by
  induction l with
  | nil => simp [sortDedup]
  | cons y ys ih => exact pairwise_insertUniq y (sortDedup ys) ih

theorem nodup_sortDedup {α : Type} [LinearOrder α] (l : List α) :
    (sortDedup l).Nodup :=
  (pairwise_sortDedup l).imp ne_of_lt

theorem maxEntry_mem (l : List (Int × MVVal)) (p : Int × MVVal) (h : maxEntry l = some p) :
    p ∈ l := by
  induction l generalizing p with
  | nil => simp [maxEntry] at h
  | cons q rest ih =>
    cases hm : maxEntry rest with
    | none =>
      simp only [maxEntry, hm] at h
      exact List.mem_cons.2 (Or.inl (Option.some_inj.1 h).symm)
    | some r =>
      simp only [maxEntry, hm] at h
      by_cases hlt : q.1 < r.1
      · rw [if_pos hlt] at h
        exact List.mem_cons.2 (Or.inr ((Option.some_inj.1 h) ▸ ih r hm))
      · rw [if_neg hlt] at h
        exact List.mem_cons.2 (Or.inl (Option.some_inj.1 h).symm)

theorem MVItem.latestBefore_lt (item : MVItem) (index : Int) (p : Int × MVVal)
    (h : item.GetLatestBeforeIndex index = some p) : p.1 < index := by
  have hm := maxEntry_mem _ p h
  have := (List.mem_filter.1 hm).2
  simpa using this

theorem MVItem.GetLatestNonEstimate_not_estimate (item : MVItem) (p : Int × MVVal)
    (h : item.GetLatestNonEstimate = some p) : p.2.IsEstimate = false := by
  have hm := maxEntry_mem _ p h
  have := (List.mem_filter.1 hm).2
  simpa using this

theorem Store.latestBeforeIndex_lt (s : Store) (index : Int) (key : String) (p : Int × MVVal)
    (h : s.GetLatestBeforeIndex index key = some p) : p.1 < index := by
  unfold Store.GetLatestBeforeIndex at h
  cases hm : lookupL s.multiVersionMap key with
  | none => rw [hm] at h; cases h
  | some item => rw [hm] at h; exact MVItem.latestBefore_lt item index p h

theorem entryAt_getD (s : Store) (key : String) (j : Int) :
    entryAt s key j = lookupL ((lookupL s.multiVersionMap key).getD []) j := by
  unfold entryAt
  cases lookupL s.multiVersionMap key <;> simp [lookupL]

theorem lookup_tryInit (s : Store) (key k' : String) :
    lookupL (s.tryInitMultiVersionItem key).multiVersionMap k' =
      if k' = key then some ((lookupL s.multiVersionMap key).getD [])
      else lookupL s.multiVersionMap k' := by
  unfold Store.tryInitMultiVersionItem
  cases hm : lookupL s.multiVersionMap key with
  | some item =>
    by_cases h : k' = key
    · subst h; simp [hm]
    · simp [h]
  | none =>
    simp only [lookupL_setL, hm]
    by_cases h : k' = key <;> simp [h]

theorem tryInit_rest (s : Store) (key : String) :
    (s.tryInitMultiVersionItem key).txWritesetKeys = s.txWritesetKeys ∧
    (s.tryInitMultiVersionItem key).txReadSets = s.txReadSets ∧
    (s.tryInitMultiVersionItem key).parentStore = s.parentStore := by
  unfold Store.tryInitMultiVersionItem
  cases lookupL s.multiVersionMap key <;> exact ⟨rfl, rfl, rfl⟩

theorem entryAt_invalidateKeyStep (s : Store) (index incarnation : Int) (key key' : String) (j : Int) :
    entryAt (invalidateKeyStep s index incarnation key) key' j =
      if key' = key ∧ j = index then some (MVVal.estimate incarnation) else entryAt s key' j := by
  have hmain : (invalidateKeyStep s index incarnation key).multiVersionMap =
      setL (s.tryInitMultiVersionItem key).multiVersionMap key
        (MVItem.SetEstimate ((lookupL (s.tryInitMultiVersionItem key).multiVersionMap key).getD [])
          index incarnation) := rfl
  rw [entryAt_getD, hmain, lookupL_setL]
  by_cases h : key' = key
  · rw [if_pos h, Option.getD_some]
    subst h
    rw [lookup_tryInit, if_pos rfl, Option.getD_some]
    unfold MVItem.SetEstimate
    rw [lookupL_setL]
    by_cases hj : j = index
    · simp [hj]
    · simp [hj, entryAt_getD]
  · rw [if_neg h, lookup_tryInit, if_neg h]
    simp [h, entryAt_getD]

theorem invalidateKeyStep_rest (s : Store) (index incarnation : Int) (key : String) :
    (invalidateKeyStep s index incarnation key).txWritesetKeys = s.txWritesetKeys ∧
    (invalidateKeyStep s index incarnation key).txReadSets = s.txReadSets ∧
    (invalidateKeyStep s index incarnation key).parentStore = s.parentStore := by
  simp only [invalidateKeyStep]
  exact ⟨(tryInit_rest s key).1, (tryInit_rest s key).2.1, (tryInit_rest s key).2.2⟩

theorem entryAt_applyWritesetEntryStep (s : Store) (index incarnation : Int)
    (p : String × Option Bytes) (key' : String) (j : Int) :
    entryAt (applyWritesetEntryStep s index incarnation p) key' j =
      if key' = p.1 ∧ j = index then some (mkWriteEntry incarnation p.2) else entryAt s key' j := by
  obtain ⟨a, v⟩ := p
  cases v with
  | none =>
    have hmain : (applyWritesetEntryStep s index incarnation (a, none)).multiVersionMap =
        setL (s.tryInitMultiVersionItem a).multiVersionMap a
          (MVItem.Delete ((lookupL (s.tryInitMultiVersionItem a).multiVersionMap a).getD [])
            index incarnation) := rfl
    rw [entryAt_getD, hmain, lookupL_setL]
    by_cases h : key' = a
    · rw [if_pos h, Option.getD_some]
      subst h
      rw [lookup_tryInit, if_pos rfl, Option.getD_some]
      unfold MVItem.Delete
      rw [lookupL_setL]
      by_cases hj : j = index
      · simp [hj, mkWriteEntry]
      · simp [hj, entryAt_getD]
    · rw [if_neg h, lookup_tryInit, if_neg h]
      simp [h, entryAt_getD]
  | some bs =>
    have hmain : (applyWritesetEntryStep s index incarnation (a, some bs)).multiVersionMap =
        setL (s.tryInitMultiVersionItem a).multiVersionMap a
          (MVItem.Set ((lookupL (s.tryInitMultiVersionItem a).multiVersionMap a).getD [])
            index incarnation bs) := rfl
    rw [entryAt_getD, hmain, lookupL_setL]
    by_cases h : key' = a
    · rw [if_pos h, Option.getD_some]
      subst h
      rw [lookup_tryInit, if_pos rfl, Option.getD_some]
      unfold MVItem.Set
      rw [lookupL_setL]
      by_cases hj : j = index
      · simp [hj, mkWriteEntry]
      · simp [hj, entryAt_getD]
    · rw [if_neg h, lookup_tryInit, if_neg h]
      simp [h, entryAt_getD]

theorem applyWritesetEntryStep_rest (s : Store) (index incarnation : Int)
    (p : String × Option Bytes) :
    (applyWritesetEntryStep s index incarnation p).txWritesetKeys = s.txWritesetKeys ∧
    (applyWritesetEntryStep s index incarnation p).txReadSets = s.txReadSets ∧
    (applyWritesetEntryStep s index incarnation p).parentStore = s.parentStore := by
  obtain ⟨a, v⟩ := p
  cases v with
  | none =>
    simp only [applyWritesetEntryStep]
    exact ⟨(tryInit_rest s a).1, (tryInit_rest s a).2.1, (tryInit_rest s a).2.2⟩
  | some bs =>
    simp only [applyWritesetEntryStep]
    exact ⟨(tryInit_rest s a).1, (tryInit_rest s a).2.1, (tryInit_rest s a).2.2⟩

theorem entryAt_applyEstimateEntryStep (s : Store) (index incarnation : Int)
    (p : String × Option Bytes) (key' : String) (j : Int) :
    entryAt (applyEstimateEntryStep s index incarnation p) key' j =
      if key' = p.1 ∧ j = index then some (MVVal.estimate incarnation) else entryAt s key' j := by
  have hmain : applyEstimateEntryStep s index incarnation p =
      invalidateKeyStep s index incarnation p.1 := rfl
  rw [hmain, entryAt_invalidateKeyStep]

theorem entryAt_removeWritesetKeyStep (s : Store) (index : Int) (ws : WriteSet)
    (key key' : String) (j : Int) :
    entryAt (removeWritesetKeyStep s index ws key) key' j =
      if key' = key ∧ (lookupL ws key).isSome = false ∧ j = index then none
      else entryAt s key' j := by
  by_cases hw : (lookupL ws key).isSome
  · unfold removeWritesetKeyStep
    rw [if_pos hw]
    simp [hw]
  · cases hm : lookupL s.multiVersionMap key with
    | none =>
      have hid : removeWritesetKeyStep s index ws key = s := by
        unfold removeWritesetKeyStep
        rw [if_neg hw, hm]
      rw [hid]
      by_cases h : key' = key ∧ (lookupL ws key).isSome = false ∧ j = index
      · rw [if_pos h, h.1, entryAt_getD, hm]
        simp [lookupL]
      · rw [if_neg h]
    | some item =>
      have hstep : removeWritesetKeyStep s index ws key =
          { s with multiVersionMap := setL s.multiVersionMap key (MVItem.Remove item index) } := by
        unfold removeWritesetKeyStep
        rw [if_neg hw, hm]
      rw [hstep, entryAt_getD]
      have hproj : ({ s with multiVersionMap := setL s.multiVersionMap key (MVItem.Remove item index) } : Store).multiVersionMap = setL s.multiVersionMap key (MVItem.Remove item index) := rfl
      rw [hproj, lookupL_setL]
      by_cases h : key' = key
      · rw [if_pos h, Option.getD_some]
        subst h
        unfold MVItem.Remove
        rw [lookupL_eraseL]
        by_cases hj : j = index
        · simp [hj, hw]
        · simp [hj, entryAt_getD, hm]
      · rw [if_neg h]
        simp [h, entryAt_getD]

theorem removeWritesetKeyStep_rest (s : Store) (index : Int) (ws : WriteSet) (key : String) :
    (removeWritesetKeyStep s index ws key).txWritesetKeys = s.txWritesetKeys ∧
    (removeWritesetKeyStep s index ws key).txReadSets = s.txReadSets ∧
    (removeWritesetKeyStep s index ws key).parentStore = s.parentStore := by
  unfold removeWritesetKeyStep
  by_cases hw : (lookupL ws key).isSome
  · rw [if_pos hw]
    exact ⟨rfl, rfl, rfl⟩
  · rw [if_neg hw]
    cases lookupL s.multiVersionMap key <;> exact ⟨rfl, rfl, rfl⟩

theorem entryAt_invalidateFold_other (keys : List String) (s : Store) (index incarnation : Int)
    (key : String) (j : Int) (h : ¬(key ∈ keys ∧ j = index)) :
    entryAt (keys.foldl (fun acc k2 => invalidateKeyStep acc index incarnation k2) s) key j =
      entryAt s key j := by
  induction keys generalizing s with
  | nil => rfl
  | cons a rest ih =>
    rw [List.foldl_cons, ih _ (fun hc => h ⟨List.mem_cons_of_mem a hc.1, hc.2⟩)]
    rw [entryAt_invalidateKeyStep]
    have : ¬(key = a ∧ j = index) := fun hc => h ⟨hc.1 ▸ List.mem_cons_self a rest, hc.2⟩
    rw [if_neg this]

theorem entryAt_invalidateFold_mem (keys : List String) (s : Store) (index incarnation : Int)
    (key : String) (h : key ∈ keys) :
    entryAt (keys.foldl (fun acc k2 => invalidateKeyStep acc index incarnation k2) s) key index =
      some (MVVal.estimate incarnation) := by
  induction keys generalizing s with
  | nil => cases h
  | cons a rest ih =>
    rw [List.foldl_cons]
    by_cases hr : key ∈ rest
    · exact ih _ hr
    · have hka : key = a := by
        rcases List.mem_cons.1 h with h1 | h1
        · exact h1
        · exact absurd h1 hr
      rw [entryAt_invalidateFold_other rest _ index incarnation key index
            (fun hc => hr hc.1)]
      rw [entryAt_invalidateKeyStep, if_pos ⟨hka, rfl⟩]

theorem invalidateFold_rest (keys : List String) (s : Store) (index incarnation : Int) :
    (keys.foldl (fun acc k2 => invalidateKeyStep acc index incarnation k2) s).txWritesetKeys =
      s.txWritesetKeys ∧
    (keys.foldl (fun acc k2 => invalidateKeyStep acc index incarnation k2) s).txReadSets =
      s.txReadSets ∧
    (keys.foldl (fun acc k2 => invalidateKeyStep acc index incarnation k2) s).parentStore =
      s.parentStore := by
  induction keys generalizing s with
  | nil => exact ⟨rfl, rfl, rfl⟩
  | cons a rest ih =>
    rw [List.foldl_cons]
    obtain ⟨h1, h2, h3⟩ := invalidateKeyStep_rest s index incarnation a
    obtain ⟨g1, g2, g3⟩ := ih (invalidateKeyStep s index incarnation a)
    exact ⟨g1.trans h1, g2.trans h2, g3.trans h3⟩

theorem entryAt_applyWSFold_other (ws : WriteSet) (s : Store) (index incarnation : Int)
    (key : String) (j : Int) (h : ¬(key ∈ ws.map Prod.fst ∧ j = index)) :
    entryAt (ws.foldl (fun acc p => applyWritesetEntryStep acc index incarnation p) s) key j =
      entryAt s key j := by
  induction ws generalizing s with
  | nil => rfl
  | cons p rest ih =>
    rw [List.foldl_cons, ih _ (fun hc => h ⟨List.mem_cons_of_mem p.1 hc.1, hc.2⟩)]
    rw [entryAt_applyWritesetEntryStep]
    have : ¬(key = p.1 ∧ j = index) := fun hc =>
      h ⟨hc.1 ▸ List.mem_cons_self p.1 (rest.map Prod.fst), hc.2⟩
    rw [if_neg this]

theorem entryAt_applyWSFold_lookup (ws : WriteSet) (s : Store) (index incarnation : Int)
    (key : String) (v : Option Bytes) (hN : (ws.map Prod.fst).Nodup)
    (h : lookupL ws key = some v) :
    entryAt (ws.foldl (fun acc p => applyWritesetEntryStep acc index incarnation p) s) key index =
      some (mkWriteEntry incarnation v) := by
  induction ws generalizing s with
  | nil => cases h
  | cons p rest ih =>
    obtain ⟨a, w⟩ := p
    rw [List.foldl_cons]
    rw [List.map_cons, List.nodup_cons] at hN
    by_cases hka : a = key
    · rw [lookupL, if_pos hka] at h
      have hv : w = v := Option.some_inj.1 h
      subst hv
      have hnr : key ∉ rest.map Prod.fst := hka ▸ hN.1
      rw [entryAt_applyWSFold_other rest _ index incarnation key index (fun hc => hnr hc.1)]
      rw [entryAt_applyWritesetEntryStep, if_pos ⟨hka.symm, rfl⟩]
    · rw [lookupL, if_neg hka] at h
      exact ih _ hN.2 h

theorem applyWSFold_rest (ws : WriteSet) (s : Store) (index incarnation : Int) :
    (ws.foldl (fun acc p => applyWritesetEntryStep acc index incarnation p) s).txWritesetKeys =
      s.txWritesetKeys ∧
    (ws.foldl (fun acc p => applyWritesetEntryStep acc index incarnation p) s).txReadSets =
      s.txReadSets ∧
    (ws.foldl (fun acc p => applyWritesetEntryStep acc index incarnation p) s).parentStore =
      s.parentStore := by
  induction ws generalizing s with
  | nil => exact ⟨rfl, rfl, rfl⟩
  | cons p rest ih =>
    rw [List.foldl_cons]
    obtain ⟨h1, h2, h3⟩ := applyWritesetEntryStep_rest s index incarnation p
    obtain ⟨g1, g2, g3⟩ := ih (applyWritesetEntryStep s index incarnation p)
    exact ⟨g1.trans h1, g2.trans h2, g3.trans h3⟩

theorem entryAt_removeFold_other (keys : List String) (s : Store) (index : Int) (ws : WriteSet)
    (key : String) (j : Int)
    (h : ¬(key ∈ keys ∧ (lookupL ws key).isSome = false ∧ j = index)) :
    entryAt (keys.foldl (fun acc k2 => removeWritesetKeyStep acc index ws k2) s) key j =
      entryAt s key j := by
  induction keys generalizing s with
  | nil => rfl
  | cons a rest ih =>
    rw [List.foldl_cons, ih _ (fun hc => h ⟨List.mem_cons_of_mem a hc.1, hc.2⟩)]
    rw [entryAt_removeWritesetKeyStep]
    have : ¬(key = a ∧ (lookupL ws a).isSome = false ∧ j = index) := by
      intro hc
      exact h ⟨hc.1 ▸ List.mem_cons_self a rest, hc.1 ▸ hc.2.1, hc.2.2⟩
    rw [if_neg this]

theorem entryAt_removeFold_none (keys : List String) (s : Store) (index : Int) (ws : WriteSet)
    (key : String) (h1 : key ∈ keys) (h2 : (lookupL ws key).isSome = false) :
    entryAt (keys.foldl (fun acc k2 => removeWritesetKeyStep acc index ws k2) s) key index =
      none := by
  induction keys generalizing s with
  | nil => cases h1
  | cons a rest ih =>
    rw [List.foldl_cons]
    by_cases hr : key ∈ rest
    · exact ih _ hr
    · have hka : key = a := by
        rcases List.mem_cons.1 h1 with hh | hh
        · exact hh
        · exact absurd hh hr
      rw [entryAt_removeFold_other rest _ index ws key index (fun hc => hr hc.1)]
      rw [entryAt_removeWritesetKeyStep, if_pos ⟨hka, hka ▸ h2, rfl⟩]

theorem removeFold_rest (keys : List String) (s : Store) (index : Int) (ws : WriteSet) :
    (keys.foldl (fun acc k2 => removeWritesetKeyStep acc index ws k2) s).txWritesetKeys =
      s.txWritesetKeys ∧
    (keys.foldl (fun acc k2 => removeWritesetKeyStep acc index ws k2) s).txReadSets =
      s.txReadSets ∧
    (keys.foldl (fun acc k2 => removeWritesetKeyStep acc index ws k2) s).parentStore =
      s.parentStore := by
  induction keys generalizing s with
  | nil => exact ⟨rfl, rfl, rfl⟩
  | cons a rest ih =>
    rw [List.foldl_cons]
    obtain ⟨h1, h2, h3⟩ := removeWritesetKeyStep_rest s index ws a
    obtain ⟨g1, g2, g3⟩ := ih (removeWritesetKeyStep s index ws a)
    exact ⟨g1.trans h1, g2.trans h2, g3.trans h3⟩

theorem entryAt_removeOldWriteset (s : Store) (index : Int) (ws : WriteSet)
    (key : String) (j : Int) :
    entryAt (s.removeOldWriteset index ws) key j =
      if key ∈ oldKeysAt s index ∧ (lookupL ws key).isSome = false ∧ j = index then none
      else entryAt s key j := by
  have hA : entryAt (s.removeOldWriteset index ws) key j =
      entryAt ((oldKeysAt s index).foldl
        (fun acc k2 => removeWritesetKeyStep acc index ws k2) s) key j := by
    rw [entryAt_getD, entryAt_getD]
    rfl
  rw [hA]
  by_cases h : key ∈ oldKeysAt s index ∧ (lookupL ws key).isSome = false ∧ j = index
  · rw [if_pos h, h.2.2]
    exact entryAt_removeFold_none _ _ _ _ _ h.1 h.2.1
  · rw [if_neg h]
    exact entryAt_removeFold_other _ _ _ _ _ _ h

theorem txWritesetKeys_removeOldWriteset (s : Store) (index : Int) (ws : WriteSet) (i' : Int) :
    lookupL (s.removeOldWriteset index ws).txWritesetKeys i' =
      if i' = index then none else lookupL s.txWritesetKeys i' := by
  have h1 : (s.removeOldWriteset index ws).txWritesetKeys =
      eraseL ((oldKeysAt s index).foldl
        (fun acc k2 => removeWritesetKeyStep acc index ws k2) s).txWritesetKeys index := rfl
  rw [h1, lookupL_eraseL, (removeFold_rest (oldKeysAt s index) s index ws).1]

theorem removeOldWriteset_rest (s : Store) (index : Int) (ws : WriteSet) :
    (s.removeOldWriteset index ws).txReadSets = s.txReadSets ∧
    (s.removeOldWriteset index ws).parentStore = s.parentStore := by
  have h2 : (s.removeOldWriteset index ws).txReadSets =
      ((oldKeysAt s index).foldl
        (fun acc k2 => removeWritesetKeyStep acc index ws k2) s).txReadSets := rfl
  have h3 : (s.removeOldWriteset index ws).parentStore =
      ((oldKeysAt s index).foldl
        (fun acc k2 => removeWritesetKeyStep acc index ws k2) s).parentStore := rfl
  exact ⟨h2.trans (removeFold_rest _ s index ws).2.1, h3.trans (removeFold_rest _ s index ws).2.2⟩

theorem entryAt_SetWriteset_eq_fold (s : Store) (index incarnation : Int) (ws : WriteSet)
    (key : String) (j : Int) :
    entryAt (s.SetWriteset index incarnation ws) key j =
      entryAt (ws.foldl (fun acc p => applyWritesetEntryStep acc index incarnation p)
        (s.removeOldWriteset index ws)) key j := by
  rw [entryAt_getD, entryAt_getD]
  rfl

theorem txWritesetKeys_SetWriteset (s : Store) (index incarnation : Int) (ws : WriteSet) (i' : Int) :
    lookupL (s.SetWriteset index incarnation ws).txWritesetKeys i' =
      if i' = index then some (sortDedup (ws.map Prod.fst)) else lookupL s.txWritesetKeys i' := by
  have h1 : (s.SetWriteset index incarnation ws).txWritesetKeys =
      setL (ws.foldl (fun acc p => applyWritesetEntryStep acc index incarnation p)
        (s.removeOldWriteset index ws)).txWritesetKeys index (sortDedup (ws.map Prod.fst)) := rfl
  rw [h1, lookupL_setL, (applyWSFold_rest ws (s.removeOldWriteset index ws) index incarnation).1,
    txWritesetKeys_removeOldWriteset]
  by_cases h : i' = index
  · simp [h]
  · simp [h]

theorem setWriteset_rest (s : Store) (index incarnation : Int) (ws : WriteSet) :
    (s.SetWriteset index incarnation ws).txReadSets = s.txReadSets ∧
    (s.SetWriteset index incarnation ws).parentStore = s.parentStore := by
  have h2 : (s.SetWriteset index incarnation ws).txReadSets =
      (ws.foldl (fun acc p => applyWritesetEntryStep acc index incarnation p)
        (s.removeOldWriteset index ws)).txReadSets := rfl
  have h3 : (s.SetWriteset index incarnation ws).parentStore =
      (ws.foldl (fun acc p => applyWritesetEntryStep acc index incarnation p)
        (s.removeOldWriteset index ws)).parentStore := rfl
  refine ⟨h2.trans ?_, h3.trans ?_⟩
  · exact ((applyWSFold_rest ws _ index incarnation).2.1).trans (removeOldWriteset_rest s index ws).1
  · exact ((applyWSFold_rest ws _ index incarnation).2.2).trans (removeOldWriteset_rest s index ws).2

theorem entryAt_SetWriteset_lookup (s : Store) (index incarnation : Int) (ws : WriteSet)
    (key : String) (v : Option Bytes) (hN : (ws.map Prod.fst).Nodup)
    (h : lookupL ws key = some v) :
    entryAt (s.SetWriteset index incarnation ws) key index = some (mkWriteEntry incarnation v) := by
  rw [entryAt_SetWriteset_eq_fold]
  exact entryAt_applyWSFold_lookup ws _ index incarnation key v hN h

theorem entryAt_SetWriteset_none (s : Store) (index incarnation : Int) (ws : WriteSet)
    (key : String) (j : Int) (h : lookupL ws key = none) :
    entryAt (s.SetWriteset index incarnation ws) key j =
      if key ∈ oldKeysAt s index ∧ j = index then none else entryAt s key j := by
  rw [entryAt_SetWriteset_eq_fold]
  have hmem : key ∉ ws.map Prod.fst := (lookupL_none_iff ws key).1 h
  rw [entryAt_applyWSFold_other ws _ index incarnation key j (fun hc => hmem hc.1)]
  rw [entryAt_removeOldWriteset]
  have hs : (lookupL ws key).isSome = false := by rw [h]; rfl
  by_cases hc : key ∈ oldKeysAt s index ∧ j = index
  · rw [if_pos ⟨hc.1, hs, hc.2⟩, if_pos hc]
  · have : ¬(key ∈ oldKeysAt s index ∧ (lookupL ws key).isSome = false ∧ j = index) :=
      fun hh => hc ⟨hh.1, hh.2.2⟩
    rw [if_neg this, if_neg hc]

theorem entryAt_SetWriteset_ne (s : Store) (index incarnation : Int) (ws : WriteSet)
    (key : String) (j : Int) (h : j ≠ index) :
    entryAt (s.SetWriteset index incarnation ws) key j = entryAt s key j := by
  rw [entryAt_SetWriteset_eq_fold]
  rw [entryAt_applyWSFold_other ws _ index incarnation key j (fun hc => h hc.2)]
  rw [entryAt_removeOldWriteset]
  exact if_neg (fun hc => h hc.2.2)

theorem mem_oldKeysAt_SetWriteset (s0 : Store) (index k1 : Int) (W1 : WriteSet) (key : String) :
    key ∈ oldKeysAt (s0.SetWriteset index k1 W1) index ↔ (lookupL W1 key).isSome := by
  unfold oldKeysAt
  rw [txWritesetKeys_SetWriteset, if_pos rfl, Option.getD_some, mem_sortDedup]
  constructor
  · intro hmem
    cases hl : lookupL W1 key with
    | none => exact absurd hmem ((lookupL_none_iff W1 key).1 hl)
    | some v => rfl
  · intro hs
    by_contra hmem
    rw [(lookupL_none_iff W1 key).2 hmem] at hs
    cases hs

theorem entryAt_none_of_not_covered (s : Store) (index : Int) (key : String)
    (hwf : WritesetCoversIndex s index) (h : key ∉ oldKeysAt s index) :
    entryAt s key index = none := by
  by_cases hm : key ∈ s.multiVersionMap.map Prod.fst
  · rcases hwf key hm with hh | hh
    · exact hh
    · exact absurd hh h
  · rw [entryAt_getD, (lookupL_none_iff s.multiVersionMap key).2 hm]
    rfl

/-- C4: SetWriteset(i, k, W) removes the entries of previous writeset keys
not in W, overwrites keys in both, applies each entry of W as Written or as
Deleted for a tombstone, replaces the recorded key list of i by the sorted
key list of W, and, over any state whose entries at i are covered by its
recorded writeset key list, leaves every key not in W as if the previous
writeset had never been set.  The Nodup hypothesis states what Go map
semantics guarantee of a writeset: its keys are distinct. -/
theorem setWriteset_spec (s : Store) (index incarnation : Int) (W : WriteSet)
    (hN : (W.map Prod.fst).Nodup) : SetWritesetSpec s index incarnation W := by
  refine ⟨?_, ?_, ?_, ?_, ?_, ?_⟩
  · rw [txWritesetKeys_SetWriteset, if_pos rfl]
  · intro key v h
    exact entryAt_SetWriteset_lookup s index incarnation W key v hN h
  · intro key h hold
    rw [entryAt_SetWriteset_none s index incarnation W key index h, if_pos ⟨hold, rfl⟩]
  · intro key h hold
    rw [entryAt_SetWriteset_none s index incarnation W key index h,
        if_neg (fun hc => hold hc.1)]
  · intro key j hj
    exact entryAt_SetWriteset_ne s index incarnation W key j hj
  · intro s0 k1 W1 hwf key hk j
    by_cases hj : j = index
    · subst hj
      rw [entryAt_SetWriteset_none (s0.SetWriteset j k1 W1) j incarnation W key j hk,
          entryAt_SetWriteset_none s0 j incarnation W key j hk]
      by_cases hk1 : (lookupL W1 key).isSome
      · rw [if_pos ⟨(mem_oldKeysAt_SetWriteset s0 j k1 W1 key).2 hk1, rfl⟩]
        by_cases hold : key ∈ oldKeysAt s0 j
        · rw [if_pos ⟨hold, rfl⟩]
        · rw [if_neg (fun hc => hold hc.1),
              entryAt_none_of_not_covered s0 j key hwf hold]
      · have hk1n : lookupL W1 key = none := Option.not_isSome_iff_eq_none.1 hk1
        have hnot : key ∉ oldKeysAt (s0.SetWriteset j k1 W1) j :=
          fun hmem => hk1 ((mem_oldKeysAt_SetWriteset s0 j k1 W1 key).1 hmem)
        rw [if_neg (fun hc => hnot hc.1)]
        rw [entryAt_SetWriteset_none s0 j k1 W1 key j hk1n]
    · rw [entryAt_SetWriteset_ne (s0.SetWriteset index k1 W1) index incarnation W key j hj,
          entryAt_SetWriteset_ne s0 index k1 W1 key j hj,
          entryAt_SetWriteset_ne s0 index incarnation W key j hj]

/-- Witness for C4 at a concrete store and writeset. -/
theorem setWriteset_spec_witness : SetWritesetSpec exS 0 1 exW :=
  setWriteset_spec exS 0 1 exW (by decide)

/-- C7: InvalidateWriteset(i, k) replaces the entry at i of every recorded
writeset key of i with Estimate(k), keeps the writeset key list for a future
replacement, and leaves every other (key, index) entry, the readsets and the
parent store unchanged. -/
theorem invalidateWriteset_spec (s : Store) (index incarnation : Int) :
    InvalidateWritesetSpec s index incarnation := by
  unfold InvalidateWritesetSpec
  cases hm : lookupL s.txWritesetKeys index with
  | none =>
    have hid : s.InvalidateWriteset index incarnation = s := by
      unfold Store.InvalidateWriteset
      rw [hm]
    rw [hid]
    refine ⟨rfl, ?_, ?_, rfl, rfl⟩
    · intro key hmem
      unfold oldKeysAt at hmem
      rw [hm] at hmem
      cases hmem
    · intro key j h
      rfl
  | some keys =>
    have hfold : s.InvalidateWriteset index incarnation =
        keys.foldl (fun acc k2 => invalidateKeyStep acc index incarnation k2) s := by
      unfold Store.InvalidateWriteset
      rw [hm]
    have hkeys : oldKeysAt s index = keys := by
      unfold oldKeysAt
      rw [hm]
      rfl
    rw [hfold]
    refine ⟨(invalidateFold_rest keys s index incarnation).1, ?_, ?_,
      (invalidateFold_rest keys s index incarnation).2.1,
      (invalidateFold_rest keys s index incarnation).2.2⟩
    · intro key hmem
      rw [hkeys] at hmem
      exact entryAt_invalidateFold_mem keys s index incarnation key hmem
    · intro key j h
      rw [hkeys] at h
      apply entryAt_invalidateFold_other
      rcases h with h | h
      · exact fun hc => h hc.1
      · exact fun hc => h hc.2

/-- Witness for C7 at a concrete store. -/
theorem invalidateWriteset_spec_witness : InvalidateWritesetSpec exS 1 3 :=
  invalidateWriteset_spec exS 1 3

/-- C8: calling ValidateTransactionState twice with no intervening mutation
returns identical lists: the method leaves the store unchanged (it takes
only read locks and writes no field), so the second call runs on the same
state and returns the same list. -/
theorem validateTransactionStateCall_idempotent (s : Store) (index : Int) :
    (s.ValidateTransactionStateCall index).2 = s ∧
    ((s.ValidateTransactionStateCall index).2.ValidateTransactionStateCall index).1 =
      (s.ValidateTransactionStateCall index).1 :=
  ⟨rfl, rfl⟩

theorem conflictOf_some_iff (s : Store) (index : Int) (key : String) (obs : Option Bytes)
    (j : Int) :
    conflictOf s index key obs = Except.ok (some j) ↔ conflictCondition s index key obs j := by
  unfold conflictOf conflictCondition
  cases hl : s.GetLatestBeforeIndex index key with
  | none =>
    by_cases hb : bytesEqual (lookupL s.parentStore key) obs
    · simp [hb]
    · simp [hb]
  | some p =>
    obtain ⟨i0, e⟩ := p
    cases e with
    | estimate k =>
      simp
    | deleted k =>
      by_cases ho : obs.isSome
      · simp [ho]
      · have ho2 : obs.isSome = false := by
          cases hoe : obs.isSome
          · rfl
          · exact absurd hoe ho
        simp [ho2]
    | written k v =>
      by_cases hb : bytesEqual (some v) obs
      · simp [hb]
      · have hb2 : bytesEqual (some v) obs = false := by
          cases hbe : bytesEqual (some v) obs
          · rfl
          · exact absurd hbe hb
        simp [hb2]
        constructor
        · intro h
          exact ⟨k, v, ⟨h, rfl, rfl⟩, hb2⟩
        · rintro ⟨k1, v1, ⟨h, _, _⟩, _⟩
          exact h

theorem conflictOf_error_msg (s : Store) (index : Int) (key : String) (obs : Option Bytes)
    (e : String) (h : conflictOf s index key obs = Except.error e) : e = parentConflictMsg := by
  unfold conflictOf at h
  cases hl : s.GetLatestBeforeIndex index key with
  | none =>
    rw [hl] at h
    by_cases hb : bytesEqual (lookupL s.parentStore key) obs
    · rw [if_pos hb] at h
      cases h
    · rw [if_neg hb] at h
      exact (Except.error.inj h).symm
  | some p =>
    obtain ⟨i0, e2⟩ := p
    rw [hl] at h
    cases e2 with
    | estimate k => cases h
    | deleted k => cases h
    | written k v => cases h

theorem conflictOf_error_of_bad (s : Store) (index : Int) (key : String) (obs : Option Bytes)
    (h1 : s.GetLatestBeforeIndex index key = none)
    (h2 : bytesEqual (lookupL s.parentStore key) obs = false) :
    conflictOf s index key obs = Except.error parentConflictMsg := by
  unfold conflictOf
  rw [h1]
  simp [h2]

theorem conflictOf_some_latest (s : Store) (index : Int) (key : String) (obs : Option Bytes)
    (j : Int) (h : conflictOf s index key obs = Except.ok (some j)) :
    ∃ e, s.GetLatestBeforeIndex index key = some (j, e) := by
  rcases (conflictOf_some_iff s index key obs j).1 h with
    ⟨k, hl⟩ | ⟨⟨k, hl⟩, _⟩ | ⟨k, v, hl, _⟩
  · exact ⟨MVVal.estimate k, hl⟩
  · exact ⟨MVVal.deleted k, hl⟩
  · exact ⟨MVVal.written k v, hl⟩

theorem collectConflicts_error (s : Store) (index : Int) (rs : List (String × Option Bytes))
    (h : ∃ p ∈ rs, s.GetLatestBeforeIndex index p.1 = none ∧
      bytesEqual (lookupL s.parentStore p.1) p.2 = false) :
    collectConflicts s index rs = Except.error parentConflictMsg := by
  induction rs with
  | nil =>
    obtain ⟨p, hp, _⟩ := h
    cases hp
  | cons q rest ih =>
    obtain ⟨qk, qv⟩ := q
    obtain ⟨p, hp, hbad⟩ := h
    rcases List.mem_cons.1 hp with hq | hq
    · have hbad2 : s.GetLatestBeforeIndex index qk = none ∧
          bytesEqual (lookupL s.parentStore qk) qv = false := by
        rw [hq] at hbad
        exact hbad
      have herr := conflictOf_error_of_bad s index qk qv hbad2.1 hbad2.2
      simp only [collectConflicts, herr]
    · simp only [collectConflicts]
      cases hc : conflictOf s index qk qv with
      | error e =>
        rw [conflictOf_error_msg s index qk qv e hc]
      | ok c =>
        rw [ih ⟨p, hq, hbad⟩]

theorem collectConflicts_ok_mem (s : Store) (index : Int) (rs : List (String × Option Bytes))
    (cs : List Int) (h : collectConflicts s index rs = Except.ok cs) (j : Int) :
    j ∈ cs ↔ ∃ p ∈ rs, conflictOf s index p.1 p.2 = Except.ok (some j) := by
  induction rs generalizing cs with
  | nil =>
    simp only [collectConflicts] at h
    have : cs = [] := (Except.ok.inj h).symm
    subst this
    simp
  | cons q rest ih =>
    obtain ⟨qk, qv⟩ := q
    simp only [collectConflicts] at h
    cases hc : conflictOf s index qk qv with
    | error e =>
      rw [hc] at h
      cases h
    | ok c =>
      rw [hc] at h
      cases hr : collectConflicts s index rest with
      | error e =>
        rw [hr] at h
        cases h
      | ok cs2 =>
        rw [hr] at h
        cases c with
        | none =>
          have hcs : cs = cs2 := (Except.ok.inj h).symm
          rw [hcs, ih cs2 hr]
          constructor
          · rintro ⟨p, hp, hcp⟩
            exact ⟨p, List.mem_cons_of_mem _ hp, hcp⟩
          · rintro ⟨p, hp, hcp⟩
            rcases List.mem_cons.1 hp with hpq | hpr
            · rw [hpq] at hcp
              rw [hcp] at hc
              cases Except.ok.inj hc
            · exact ⟨p, hpr, hcp⟩
        | some j0 =>
          have hcs : cs = j0 :: cs2 := (Except.ok.inj h).symm
          rw [hcs]
          constructor
          · intro hj
            rcases List.mem_cons.1 hj with hj0 | hmem
            · refine ⟨(qk, qv), List.mem_cons_self _ _, ?_⟩
              rw [hj0]
              exact hc
            · obtain ⟨p, hp, hcp⟩ := (ih cs2 hr).1 hmem
              exact ⟨p, List.mem_cons_of_mem _ hp, hcp⟩
          · rintro ⟨p, hp, hcp⟩
            rcases List.mem_cons.1 hp with hpq | hpr
            · apply List.mem_cons.2
              left
              rw [hpq] at hcp
              rw [hcp] at hc
              exact Option.some_inj.1 (Except.ok.inj hc)
            · exact List.mem_cons.2 (Or.inr ((ih cs2 hr).2 ⟨p, hpr, hcp⟩))

/-- C3: when validation returns, the returned list is strictly ascending and
holds exactly the indices j for which some readset key has, as latest entry
strictly before the validated index, an Estimate at j, a Deleted entry at j
with a non-nil observed value, or a Written entry at j with differing
bytes. -/
theorem validateTransactionState_conflicts (s : Store) (index : Int) (l : List Int)
    (h : s.ValidateTransactionState index = Except.ok l) :
    ValidateConflictsSpec s index l := by
  unfold Store.ValidateTransactionState at h
  cases hc : collectConflicts s index ((s.GetReadset index).getD []) with
  | error e =>
    rw [hc] at h
    cases h
  | ok cs =>
    rw [hc] at h
    have hl : l = sortDedup cs := (Except.ok.inj h).symm
    refine ⟨hl ▸ pairwise_sortDedup cs, ?_⟩
    intro j
    rw [hl, mem_sortDedup, collectConflicts_ok_mem s index _ cs hc j]
    constructor
    · rintro ⟨p, hp, hcp⟩
      exact ⟨p, hp, (conflictOf_some_iff s index p.1 p.2 j).1 hcp⟩
    · rintro ⟨p, hp, hcp⟩
      exact ⟨p, hp, (conflictOf_some_iff s index p.1 p.2 j).2 hcp⟩

/-- Witness for C3: on the concrete store, validating index 2 returns the
ascending conflict list [0, 1]. -/
theorem validateTransactionState_conflicts_witness : ValidateConflictsSpec exS 2 [0, 1] :=
  validateTransactionState_conflicts exS 2 [0, 1] (by rfl)

/-- C6: when some readset key has no entry strictly before the validated
index and the observed value differs byte-wise from the parent store, the
validation raises the fatal parent-conflict panic instead of recording a
conflict. -/
theorem validateTransactionState_parent_conflict_panics (s : Store) (index : Int)
    (h : ∃ p ∈ readsetOf s index, s.GetLatestBeforeIndex index p.1 = none ∧
      bytesEqual (lookupL s.parentStore p.1) p.2 = false) :
    s.ValidateTransactionState index = Except.error parentConflictMsg := by
  unfold readsetOf at h
  unfold Store.ValidateTransactionState
  rw [collectConflicts_error s index _ h]

/-- Witness for C6 at a concrete store whose readset disagrees with the
parent on an unversioned key. -/
theorem validateTransactionState_parent_conflict_witness :
    Store.ValidateTransactionState exS6 1 = Except.error parentConflictMsg :=
  validateTransactionState_parent_conflict_panics exS6 1 (by decide)

/-- C9: every conflict index the validation returns is strictly below the
validated index, because each is the index of an entry found by
GetLatestBeforeIndex, which considers only entries strictly below it. -/
theorem validateTransactionState_conflicts_lt (s : Store) (index : Int) (l : List Int)
    (j : Int) (h1 : s.ValidateTransactionState index = Except.ok l) (h2 : j ∈ l) :
    j < index := by
  unfold Store.ValidateTransactionState at h1
  cases hc : collectConflicts s index ((s.GetReadset index).getD []) with
  | error e =>
    rw [hc] at h1
    cases h1
  | ok cs =>
    rw [hc] at h1
    have hl : l = sortDedup cs := (Except.ok.inj h1).symm
    rw [hl, mem_sortDedup] at h2
    obtain ⟨p, hp, hcp⟩ := (collectConflicts_ok_mem s index _ cs hc j).1 h2
    obtain ⟨e, hlat⟩ := conflictOf_some_latest s index p.1 p.2 j hcp
    exact Store.latestBeforeIndex_lt s index p.1 (j, e) hlat

/-- Witness for C9: conflict index 0 of the concrete validation is below the
validated index 2. -/
theorem validateTransactionState_conflicts_lt_witness :
    Store.ValidateTransactionState exS 2 = Except.ok [0, 1] ∧ (0 : Int) < 2 :=
  ⟨by rfl, validateTransactionState_conflicts_lt exS 2 [0, 1] 0 (by rfl) (by decide)⟩

/-- C10: a transaction that never published a readset validates vacuously:
with no recorded readset the validation returns the empty conflict list. -/
theorem validateTransactionState_no_readset (s : Store) (index : Int)
    (h : s.GetReadset index = none) :
    s.ValidateTransactionState index = Except.ok [] := by
  unfold Store.ValidateTransactionState
  rw [h]
  rfl

/-- Witness for C10: index 5 of the concrete store has no recorded readset
and validates to the empty list. -/
theorem validateTransactionState_no_readset_witness :
    Store.ValidateTransactionState exS 5 = Except.ok [] :=
  validateTransactionState_no_readset exS 5 (by decide)

theorem commitResultAt_congr (s1 s : Store) (k' : String)
    (hm : s1.multiVersionMap = s.multiVersionMap)
    (hp : lookupL s1.parentStore k' = lookupL s.parentStore k') :
    commitResultAt s1 k' = commitResultAt s k' := by
  unfold commitResultAt
  rw [hm, hp]

theorem commitResultAt_not_mem (s : Store) (k' : String)
    (h : lookupL s.multiVersionMap k' = none) :
    commitResultAt s k' = lookupL s.parentStore k' := by
  unfold commitResultAt
  rw [h]

theorem writeKeyStep_ok (s : Store) (key : String) :
    ∃ s1, writeKeyStep s key = Except.ok s1 ∧
      s1.multiVersionMap = s.multiVersionMap ∧
      s1.txWritesetKeys = s.txWritesetKeys ∧
      s1.txReadSets = s.txReadSets ∧
      ∀ k', lookupL s1.parentStore k' =
        if k' = key then commitResultAt s key else lookupL s.parentStore k' := by
  cases hg : MVItem.GetLatestNonEstimate ((lookupL s.multiVersionMap key).getD []) with
  | none =>
    have hstep : writeKeyStep s key = Except.ok s := by
      unfold writeKeyStep
      rw [hg]
    have hcr : commitResultAt s key = lookupL s.parentStore key := by
      cases hm : lookupL s.multiVersionMap key with
      | none => simp only [commitResultAt, hm]
      | some item =>
        rw [hm, Option.getD_some] at hg
        simp only [commitResultAt, hm, hg]
    refine ⟨s, hstep, rfl, rfl, rfl, ?_⟩
    intro k'
    by_cases h : k' = key
    · rw [if_pos h, hcr, h]
    · rw [if_neg h]
  | some p =>
    obtain ⟨i0, e⟩ := p
    cases hm : lookupL s.multiVersionMap key with
    | none =>
      rw [hm] at hg
      simp [MVItem.GetLatestNonEstimate, maxEntry] at hg
    | some item =>
      rw [hm, Option.getD_some] at hg
      cases e with
      | estimate k =>
        have hne := MVItem.GetLatestNonEstimate_not_estimate item (i0, MVVal.estimate k) hg
        simp [MVVal.IsEstimate] at hne
      | deleted k =>
        have hstep : writeKeyStep s key =
            Except.ok { s with parentStore := eraseL s.parentStore key } := by
          unfold writeKeyStep
          rw [hm, Option.getD_some, hg]
        have hcr : commitResultAt s key = none := by
          simp only [commitResultAt, hm, hg]
        refine ⟨_, hstep, rfl, rfl, rfl, ?_⟩
        intro k'
        show lookupL (eraseL s.parentStore key) k' = _
        rw [lookupL_eraseL, hcr]
      | written k v =>
        have hstep : writeKeyStep s key =
            Except.ok { s with parentStore := setL s.parentStore key v } := by
          unfold writeKeyStep
          rw [hm, Option.getD_some, hg]
        have hcr : commitResultAt s key = some v := by
          simp only [commitResultAt, hm, hg]
        refine ⟨_, hstep, rfl, rfl, rfl, ?_⟩
        intro k'
        show lookupL (setL s.parentStore key v) k' = _
        rw [lookupL_setL, hcr]

theorem writeKeysLoop_ok (keys : List String) (s : Store) (hN : keys.Nodup) :
    ∃ s1, writeKeysLoop s keys = Except.ok s1 ∧
      s1.multiVersionMap = s.multiVersionMap ∧
      s1.txWritesetKeys = s.txWritesetKeys ∧
      s1.txReadSets = s.txReadSets ∧
      ∀ k', lookupL s1.parentStore k' =
        if k' ∈ keys then commitResultAt s k' else lookupL s.parentStore k' := by
  induction keys generalizing s with
  | nil =>
    refine ⟨s, rfl, rfl, rfl, rfl, ?_⟩
    intro k'
    simp
  | cons a rest ih =>
    obtain ⟨s1, hstep, hm1, hw1, hr1, hp1⟩ := writeKeyStep_ok s a
    obtain ⟨hna, hnr⟩ := List.nodup_cons.1 hN
    obtain ⟨s2, hloop, hm2, hw2, hr2, hp2⟩ := ih s1 hnr
    refine ⟨s2, ?_, hm2.trans hm1, hw2.trans hw1, hr2.trans hr1, ?_⟩
    · show writeKeysLoop s (a :: rest) = Except.ok s2
      simp only [writeKeysLoop, hstep]
      exact hloop
    · intro k'
      rw [hp2 k']
      by_cases hk : k' ∈ rest
      · rw [if_pos hk, if_pos (List.mem_cons_of_mem a hk)]
        have hne : k' ≠ a := fun hh => hna (hh ▸ hk)
        have hpar : lookupL s1.parentStore k' = lookupL s.parentStore k' := by
          rw [hp1 k', if_neg hne]
        exact commitResultAt_congr s1 s k' hm1 hpar
      · rw [if_neg hk, hp1 k']
        by_cases ha : k' = a
        · rw [if_pos ha, if_pos (by rw [ha]; exact List.mem_cons_self a rest)]
          rw [ha]
        · rw [if_neg ha, if_neg (fun hh => (List.mem_cons.1 hh).elim ha hk)]

/-- C5: the commit iterates the keys of the multi-version map in strictly
ascending sorted order; for every key with no writeable entry the parent is
untouched, a Deleted entry deletes the parent key, a Written entry sets it;
the loop never reaches the estimate panic because latest_non_estimate never
yields an Estimate, so the hypothesis of the claim (no Estimate remains as a
latest-non-estimate candidate) always holds. -/
theorem writeLatestToStore_spec (s : Store)
    (hNoEst : ∀ p ∈ s.multiVersionMap,
      isEstimateOpt (Option.map Prod.snd (MVItem.GetLatestNonEstimate p.2)) = false) :
    WriteLatestSpec s := by
  refine ⟨pairwise_sortDedup _, ?_⟩
  obtain ⟨s1, hloop, hm, hw, hr, hp⟩ :=
    writeKeysLoop_ok (sortDedup (s.multiVersionMap.map Prod.fst)) s (nodup_sortDedup _)
  refine ⟨s1, hloop, hm, hw, hr, ?_⟩
  intro key
  rw [hp key]
  by_cases h : key ∈ sortDedup (s.multiVersionMap.map Prod.fst)
  · rw [if_pos h]
  · rw [if_neg h]
    rw [mem_sortDedup] at h
    exact (commitResultAt_not_mem s key ((lookupL_none_iff _ _).2 h)).symm

/-- Witness for C5 at the concrete store. -/
theorem writeLatestToStore_spec_witness : WriteLatestSpec exS :=
  writeLatestToStore_spec exS (by decide)
